import Mathlib

/-!
Verification of the SageNB worksheet reader (`sagenb_export/sagenb_reader.py`).

The embedding models text as `List Char`.  Python strings are translated via
`chars`, Python `str.splitlines` via `splitKeepEnds` (keepends) and
`splitNoEnds`, Python `str.strip()` via `pyStrip`, Python `str.find` via
`findSub`, and Python `str.replace(pat, "")` via `removeClose`.

The worksheet parser (`WorksheetParser`) keeps a cursor `pos` into a fixed
line list; the embedding carries the equivalent suffix of lines still to be
read (`self.pos >= len(...)`, i.e. `is_finished`, becomes "the suffix is
empty", and reading `self.line` at an exhausted cursor is Python's
`IndexError`).  Python exceptions are modelled by `Except Err`.
-/

/-- Characters of a Lean string literal, used to write concrete inputs. -/
def chars (s : String) : List Char := s.data

/-- The characters on which Python `str.splitlines` splits
(`\n`, `\r` with `\r\n` taken as one break, `\v`, `\f`, `\x1c`, `\x1d`,
`\x1e`, `\x85`, U+2028, U+2029). -/
def isLineBreakChar (c : Char) : Bool :=
  c = '\n' || c = '\r' || c = '\x0b' || c = '\x0c' ||
  c = '\x1c' || c = '\x1d' || c = '\x1e' ||
  c = '\x85' || c = '\u2028' || c = '\u2029'

/-- Python `str.isspace` (the set stripped by `str.strip()` with no
argument): `\t`-`\r`, the information separators `\x1c`-`\x1f`, space,
`\x85`, `\xa0`, and the Unicode space characters. -/
def pyIsSpace (c : Char) : Bool :=
  (9 ≤ c.toNat && c.toNat ≤ 13) ||
  (28 ≤ c.toNat && c.toNat ≤ 32) ||
  c.toNat = 0x85 || c.toNat = 0xa0 || c.toNat = 0x1680 ||
  (0x2000 ≤ c.toNat && c.toNat ≤ 0x200a) ||
  c.toNat = 0x2028 || c.toNat = 0x2029 ||
  c.toNat = 0x202f || c.toNat = 0x205f || c.toNat = 0x3000

/-- Remove trailing `pyIsSpace` characters (the right half of `str.strip()`). -/
def stripRight (u : List Char) : List Char :=
  (u.reverse.dropWhile pyIsSpace).reverse

/-- Python `str.strip()`: drop leading and trailing whitespace. -/
def pyStrip (u : List Char) : List Char :=
  stripRight (u.dropWhile pyIsSpace)

/-- Worker for `splitKeepEnds`; `acc` holds the reversed characters of the
current (unfinished) line. -/
def splitKeepEndsAux : List Char → List Char → List (List Char)
  | [], acc => if acc = [] then [] else [acc.reverse]
  | [c], acc =>
    if isLineBreakChar c then (acc.reverse ++ [c]) :: splitKeepEndsAux [] []
    else splitKeepEndsAux [] (c :: acc)
  | c :: c' :: cs, acc =>
    if c = '\r' ∧ c' = '\n' then
      (acc.reverse ++ ['\r', '\n']) :: splitKeepEndsAux cs []
    else if isLineBreakChar c then
      (acc.reverse ++ [c]) :: splitKeepEndsAux (c' :: cs) []
    else splitKeepEndsAux (c' :: cs) (c :: acc)

/-- Python `str.splitlines(True)`: split into lines, keeping the line
terminators.  Used by `ComputeCell.ipython_input`. -/
def splitKeepEnds (s : List Char) : List (List Char) :=
  splitKeepEndsAux s []

/-- Worker for `splitNoEnds`. -/
def splitNoEndsAux : List Char → List Char → List (List Char)
  | [], acc => if acc = [] then [] else [acc.reverse]
  | [c], acc =>
    if isLineBreakChar c then acc.reverse :: splitNoEndsAux [] []
    else splitNoEndsAux [] (c :: acc)
  | c :: c' :: cs, acc =>
    if c = '\r' ∧ c' = '\n' then acc.reverse :: splitNoEndsAux cs []
    else if isLineBreakChar c then acc.reverse :: splitNoEndsAux (c' :: cs) []
    else splitNoEndsAux (c' :: cs) (c :: acc)

/-- Python `str.splitlines()`: split into lines, dropping the line
terminators.  Used by `WorksheetParser.__init__`. -/
def splitNoEnds (s : List Char) : List (List Char) :=
  splitNoEndsAux s []

/-- Concatenation of a list of character lists. -/
def joinAll : List (List Char) → List Char
  | [] => []
  | l :: ls => l ++ joinAll ls

/-- Python `'\n'.join(...)`: join with a single newline between elements. -/
def joinNL : List (List Char) → List Char
  | [] => []
  | [l] => l
  | l :: ls => l ++ '\n' :: joinNL ls

/-- Modelled from the spec: the external `unescape` collaborator
(`sagenb_export.unescape`, not part of the given source) reverses the
worksheet format's own text escaping and "must be idempotent on
already-plain text containing no escape sequences"; the spec treats it as
an opaque black box on logical text, so it is modelled as the identity. -/
def unescape (s : List Char) : List Char := s

/-! ### `ComputeCell.ipython_input` (directive rewriting) -/

/-- The closed set of legacy no-op directives dropped by `ipython_input`:
`['%auto', '%hide', '%hideall', '%save_server']`. -/
def noopDirectives : List (List Char) :=
  [chars ("%auto"), chars ("%hide"), chars ("%hideall"), chars ("%save_server")]

/-- Python `line.startswith('%')`. -/
def startsPercent (l : List Char) : Bool :=
  match l with
  | [] => false
  | c :: _ => c = '%'

/-- One leading directive line of `ipython_input`: a stripped no-op
directive is dropped (`None`), any other `%`-line becomes
`"%" + line.strip() + "\n"`. -/
def rewriteDirective (l : List Char) : Option (List Char) :=
  if pyStrip l ∈ noopDirectives then none
  else some (('%' :: pyStrip l) ++ ['\n'])

/-- The `for line in lines` loop of `ipython_input`: rewrite leading
`%`-lines, and on the first other line append it and the remaining lines
verbatim (the `break` plus the trailing `for` loop). -/
def ipyLoop : List (List Char) → List Char
  | [] => []
  | l :: ls =>
    if startsPercent l then
      (match rewriteDirective l with
        | none => []
        | some r => r) ++ ipyLoop ls
    else l ++ joinAll ls

/-- `ComputeCell.ipython_input`: convert SageNB input to IPython input. -/
def ipythonInput (input : List Char) : List Char :=
  ipyLoop (splitKeepEnds input)

/-- The directive rewrite as the spec describes it: drop or promote every
line of the leading `%`-block, then append the remaining lines verbatim. -/
def ipythonInputSpec (input : List Char) : List Char :=
  joinAll (((splitKeepEnds input).takeWhile startsPercent).filterMap rewriteDirective) ++
    joinAll ((splitKeepEnds input).dropWhile startsPercent)

/-- The leading block of `%`-prefixed lines of a rewritten input
(with line terminators kept), used to state the idempotence claim. -/
def leadingPercentBlock (s : List Char) : List (List Char) :=
  (splitKeepEnds s).takeWhile startsPercent

/-- True when the first line of `s` does not begin with `%` (vacuously true
for the empty input). -/
def firstLineNoPercent (s : List Char) : Bool :=
  match splitKeepEnds s with
  | [] => true
  | l :: _ => !startsPercent l

/-! ### `ComputeCell.plain_text_output` (HTML-block stripping) -/

/-- Does `pat` occur at the head of `s`? -/
def beginsWith : List Char → List Char → Bool
  | [], _ => true
  | _ :: _, [] => false
  | p :: ps, c :: cs => p = c && beginsWith ps cs

/-- Python `s.find(pat)` (restricted to nonempty `pat` as used here):
index of the first occurrence, `none` for `-1`. -/
def findSub : List Char → List Char → Option Nat
  | [], pat => if pat = [] then some 0 else none
  | c :: cs, pat =>
    if beginsWith pat (c :: cs) then some 0
    else (findSub cs pat).map (· + 1)

/-- The literal opening tag `<html>`. -/
def openTag : List Char := chars ("<html>")

/-- The literal closing tag `</html>`. -/
def closeTag : List Char := chars ("</html>")

/-- The `while len(s) > 0` loop of `plain_text_output`, with accumulator
`t`.  Each iteration removes at least one character from `s`, so fuel
`s.length + 1` always suffices; the fuel-exhausted branch is unreachable. -/
def stripPass : Nat → List Char → List Char → List Char
  | 0, t, s => t ++ s
  | fuel + 1, t, s =>
    if s = [] then t
    else
      match findSub s openTag with
      | none => t ++ s
      | some i =>
        match findSub s closeTag with
        | none => t ++ s.take i
        | some j => stripPass fuel (t ++ s.take i) (s.drop (j + 7))

/-- Python `t.replace('</html>', '')`: one left-to-right pass removing
non-overlapping occurrences (fuelled; fuel `s.length + 1` suffices). -/
def removeCloseAux : Nat → List Char → List Char
  | 0, s => s
  | _ + 1, [] => []
  | fuel + 1, c :: cs =>
    if beginsWith closeTag (c :: cs) then removeCloseAux fuel ((c :: cs).drop 7)
    else c :: removeCloseAux fuel cs

/-- Python `t.replace('</html>', '')`. -/
def removeClose (s : List Char) : List Char :=
  removeCloseAux (s.length + 1) s

/-- `ComputeCell.plain_text_output`: the cell output without
`<html>...</html>` blocks. -/
def plainTextOutput (output : List Char) : List Char :=
  removeClose (stripPass (output.length + 1) [] output)

/-- The removal pass exactly as the claim words it, as a plain recursion
without the accumulator: the closing tag is searched in the whole remaining
string (`s.find('</html>')`), everything before the opening tag is kept,
and scanning continues after the closing tag. -/
def claimPassAux : Nat → List Char → List Char
  | 0, s => s
  | fuel + 1, s =>
    if s = [] then []
    else
      match findSub s openTag with
      | none => s
      | some i =>
        match findSub s closeTag with
        | none => s.take i
        | some j => s.take i ++ claimPassAux fuel (s.drop (j + 7))

/-- `plain_text_output` as the amended claim describes it. -/
def claimStrip (s : List Char) : List Char :=
  removeClose (claimPassAux (s.length + 1) s)

/-- The removal pass under the claim's natural reading, where "the next
`</html>` closing tag" is the first one after the opening tag, so that the
region discarded always runs from the opening tag through the closing
tag. -/
def claimNaturalPassAux : Nat → List Char → List Char
  | 0, s => s
  | fuel + 1, s =>
    if s = [] then []
    else
      match findSub s openTag with
      | none => s
      | some i =>
        match findSub (s.drop i) closeTag with
        | none => s.take i
        | some j => s.take i ++ claimNaturalPassAux fuel (s.drop (i + j + 7))

/-- `plain_text_output` as the original claim, read naturally, describes
it: remove each region from an opening tag through the next closing tag
after it, then strip orphaned closing tags. -/
def claimNaturalStrip (s : List Char) : List Char :=
  removeClose (claimNaturalPassAux (s.length + 1) s)

/-! ### The line classifier -/

/-- Python exceptions surfaced by the reader. -/
inductive Err
  | indexError
  | valueError
  | assertionError
deriving DecidableEq, Repr

/-- The two cell variants: `TextCell(input)` and
`ComputeCell(index, input, output)`. -/
inductive Cell
  | text : List Char → Cell
  | compute : Int → List Char → List Char → Cell
deriving DecidableEq, Repr

deriving instance DecidableEq for Except

/-- The literal prefix of a cell-open marker. -/
def frontMarkerPre : List Char := chars ("\x7b\x7b\x7bid=")

/-- The cell-mid marker line `///` (regex `^///$`). -/
def cellMid : List Char := chars ("///")

/-- The cell-close marker line (regex of three closing braces,
`^\x7d\x7d\x7d$`). -/
def cellBack : List Char := chars ("\x7d\x7d\x7d")

/-- The regex `CELL_FRONT`, i.e. `^\x7b\x7b\x7bid=(?P<index>[0-9]*)\|$`:
if the whole line is the literal prefix, a run of zero or more ASCII
digits, and a final `|`, return the captured digit run. -/
def cellFrontCapture (l : List Char) : Option (List Char) :=
  if 7 ≤ l.length ∧ l.take 6 = frontMarkerPre ∧ l.getLast? = some '|' ∧
      (l.drop 6).dropLast.all Char.isDigit
  then some ((l.drop 6).dropLast)
  else none

/-- Python `int` on a captured digit run. -/
def digitsToNat (ds : List Char) : Nat :=
  ds.foldl (fun n c => 10 * n + (c.toNat - 48)) 0

/-- The `is_cell_front` property evaluated on one line, with the current
`self.index`: on a regex match with a nonempty capture it returns `True`
and the new index; a match with an empty capture makes
`int(match.group('index'))` raise `ValueError`; otherwise it returns
`False` and leaves the index unchanged. -/
def isCellFrontStep (l : List Char) (index : Int) : Except Err (Bool × Int) :=
  match cellFrontCapture l with
  | none => .ok (false, index)
  | some [] => .error .valueError
  | some ds => .ok (true, (digitsToNat ds : Int))

/-- The cell-open shape exactly as the claim states it: the literal prefix,
one or more decimal digits, a final `|`, and nothing else. -/
def IsExactCellFrontShape (l : List Char) : Prop :=
  8 ≤ l.length ∧ l.take 6 = frontMarkerPre ∧ l.getLast? = some '|' ∧
    (l.drop 6).dropLast.all Char.isDigit

instance : DecidablePred IsExactCellFrontShape := fun l => by
  unfold IsExactCellFrontShape; infer_instance

/-! ### The worksheet parser

`rem` is the suffix of worksheet lines from the cursor on.  Each loop
below evaluates its marker predicate before `is_finished`, exactly as the
Python `while not (self.is_cell_front or self.is_finished)` conditions do,
so an exhausted cursor raises `IndexError` from the `line` property. -/

/-- `_try_read_text`: accumulate lines until a cell-open marker.  Returns
the accumulated narrative lines, the captured digit run of the marker, and
the remaining lines (the marker not yet consumed). -/
def scanText : List (List Char) → List (List Char) →
    Except Err (List (List Char) × List Char × List (List Char))
  | [], _ => .error .indexError
  | l :: rem, acc =>
    match cellFrontCapture l with
    | some [] => .error .valueError
    | some ds => .ok (acc, ds, l :: rem)
    | none => scanText rem (acc ++ [l])

/-- The accumulation loop of `_read_cell_input`: lines until `///`.
Returns the accumulated lines and the remaining lines (marker included). -/
def readInputLoop : List (List Char) → List (List Char) →
    Except Err (List (List Char) × List (List Char))
  | [], _ => .error .indexError
  | l :: rem, acc =>
    if l = cellMid then .ok (acc, l :: rem)
    else readInputLoop rem (acc ++ [l])

/-- The accumulation loop of `_read_cell_output`: lines until the close
marker. -/
def readOutputLoop : List (List Char) → List (List Char) →
    Except Err (List (List Char) × List (List Char))
  | [], _ => .error .indexError
  | l :: rem, acc =>
    if l = cellBack then .ok (acc, l :: rem)
    else readOutputLoop rem (acc ++ [l])

/-- `_read_cell_input`: assert the cell-open marker (re-evaluating
`is_cell_front`, which re-captures the index), consume it, and accumulate
until `///`.  Returns the unescaped stripped input, the index, and the
remaining lines. -/
def readInput (rem : List (List Char)) :
    Except Err (List Char × Int × List (List Char)) :=
  match rem with
  | [] => .error .indexError
  | l :: rem' =>
    match cellFrontCapture l with
    | none => .error .assertionError
    | some [] => .error .valueError
    | some ds =>
      match readInputLoop rem' [] with
      | .error e => .error e
      | .ok (acc, rem'') =>
        .ok (unescape (pyStrip (joinNL acc)), (digitsToNat ds : Int), rem'')

/-- `_read_cell_output`: assert the `///` marker, consume it, and
accumulate until the close marker. -/
def readOutput (rem : List (List Char)) :
    Except Err (List Char × List (List Char)) :=
  match rem with
  | [] => .error .indexError
  | l :: rem' =>
    if l = cellMid then
      match readOutputLoop rem' [] with
      | .error e => .error e
      | .ok (acc, rem'') => .ok (unescape (pyStrip (joinNL acc)), rem'')
    else .error .assertionError

/-- One round of `__iter__`: `_try_read_text` (yielding a `TextCell` when
the stripped buffer is nonempty), `_read_cell` (with the `index >= 0`
assertion of `ComputeCell.__init__`), and, when not finished, the
`is_cell_back` assertion and the consumption of the close marker.  Returns
the cells yielded by the round and the remaining lines. -/
def roundStep (rem : List (List Char)) :
    Except Err (List Cell × List (List Char)) :=
  match scanText rem [] with
  | .error e => .error e
  | .ok (tacc, _, rem1) =>
    match readInput rem1 with
    | .error e => .error e
    | .ok (input, index, rem2) =>
      match readOutput rem2 with
      | .error e => .error e
      | .ok (output, rem3) =>
        if index < 0 then .error .assertionError
        else
          let tstr := pyStrip (joinNL tacc)
          let cells := (if tstr = [] then [] else [Cell.text (unescape tstr)]) ++
            [Cell.compute index input output]
          match rem3 with
          | [] => .ok (cells, [])
          | l :: rem4 =>
            if l = cellBack then .ok (cells, rem4)
            else .error .assertionError

/-- The `while not self.is_finished` loop of `__iter__`, fuelled by the
number of rounds; `none` means the fuel ran out (never happens from
`lines.length + 1`, see the termination theorem). -/
def iterFuel : Nat → List (List Char) → Option (Except Err (List Cell))
  | 0, _ => none
  | fuel + 1, rem =>
    if rem = [] then some (.ok [])
    else
      match roundStep rem with
      | .error e => some (.error e)
      | .ok (cells, rem') =>
        match iterFuel fuel rem' with
        | none => none
        | some (.error e) => some (.error e)
        | some (.ok rest) => some (.ok (cells ++ rest))

/-- Parse a whole worksheet document: split it into lines and run the
iteration.  On success the full cell sequence is returned; a Python
exception surfaces as `Except.error` (the cells yielded before it are
dropped).  The `none` branch is unreachable. -/
def parseWorksheet (doc : List Char) : Except Err (List Cell) :=
  match iterFuel ((splitNoEnds doc).length + 1) (splitNoEnds doc) with
  | some r => r
  | none => .error .indexError

/-- Nonnegativity of a cell's index (vacuous for a `TextCell`). -/
def cellIndexNonneg : Cell → Prop
  | .text _ => True
  | .compute i _ _ => 0 ≤ i


/-! ### Lemmas about line splitting -/

theorem splitKeepEndsAux_nil (acc : List Char) :
    splitKeepEndsAux [] acc = if acc = [] then [] else [acc.reverse] := rfl

theorem splitKeepEndsAux_rn (cs acc : List Char) :
    splitKeepEndsAux ('\r' :: '\n' :: cs) acc =
      (acc.reverse ++ ['\r', '\n']) :: splitKeepEndsAux cs [] := by
  simp [splitKeepEndsAux]

theorem splitKeepEndsAux_break (c : Char) (cs acc : List Char)
    (hb : isLineBreakChar c = true) (hr : ¬(c = '\r' ∧ cs.head? = some '\n')) :
    splitKeepEndsAux (c :: cs) acc =
      (acc.reverse ++ [c]) :: splitKeepEndsAux cs [] := by
  cases cs with
  | nil => simp [splitKeepEndsAux, hb]
  | cons c' cs' =>
    have hcc : ¬(c = '\r' ∧ c' = '\n') := by
      rintro ⟨rfl, rfl⟩; exact hr ⟨rfl, rfl⟩
    simp [splitKeepEndsAux, hb, hcc]

theorem splitKeepEndsAux_cons (c : Char) (cs acc : List Char)
    (h : isLineBreakChar c = false) :
    splitKeepEndsAux (c :: cs) acc = splitKeepEndsAux cs (c :: acc) := by
  have hr : c ≠ '\r' := by rintro rfl; simp [isLineBreakChar] at h
  cases cs with
  | nil => simp [splitKeepEndsAux, h]
  | cons c' cs' =>
    have hcc : ¬(c = '\r' ∧ c' = '\n') := by rintro ⟨rfl, -⟩; exact hr rfl
    simp [splitKeepEndsAux, h, hcc]

theorem joinAll_splitKeepEndsAux (cs acc : List Char) :
    joinAll (splitKeepEndsAux cs acc) = acc.reverse ++ cs := by
  induction cs, acc using splitKeepEndsAux.induct with
  | case1 => simp [splitKeepEndsAux, joinAll]
  | case2 acc h => simp [splitKeepEndsAux, h, joinAll]
  | case3 c acc hb ih => simp [splitKeepEndsAux, hb, joinAll, ih]
  | case4 c acc hb ih => simp [splitKeepEndsAux, hb, joinAll, ih]
  | case5 c c' cs acc h ih =>
    obtain ⟨rfl, rfl⟩ := h
    simp [splitKeepEndsAux_rn, joinAll, ih]
  | case6 c c' cs acc hcc hb ih =>
    rw [splitKeepEndsAux_break c _ acc hb]
    · simp [joinAll, ih]
    · rintro ⟨rfl, hh⟩
      simp only [List.head?_cons, Option.some.injEq] at hh
      exact hcc ⟨rfl, hh⟩
  | case7 c c' cs acc hcc hb ih =>
    rw [splitKeepEndsAux_cons c _ acc (by simpa using hb)]
    simp [ih]

theorem joinAll_splitKeepEnds (s : List Char) :
    joinAll (splitKeepEnds s) = s := by
  simpa using joinAll_splitKeepEndsAux s []

theorem splitKeepEnds_eq_nil (s : List Char) (h : splitKeepEnds s = []) :
    s = [] := by
  have hj := joinAll_splitKeepEnds s
  rw [h] at hj
  simpa [joinAll] using hj.symm

/-! ### The directive rewrite: claims C3 and C9 -/

theorem ipyLoop_take_drop (ls : List (List Char)) :
    ipyLoop ls = joinAll ((ls.takeWhile startsPercent).filterMap rewriteDirective) ++
      joinAll (ls.dropWhile startsPercent) := by
  induction ls with
  | nil => simp [ipyLoop, joinAll]
  | cons l ls ih =>
    by_cases h : startsPercent l
    · rw [ipyLoop, if_pos h, List.takeWhile_cons, if_pos h, List.dropWhile_cons_of_pos h,
        List.filterMap_cons, ih]
      cases hrw : rewriteDirective l with
      | none => simp
      | some r => simp [joinAll]
    · rw [ipyLoop, if_neg h, List.takeWhile_cons, if_neg h,
        List.dropWhile_cons_of_neg h]
      simp [joinAll]

/-- Claim C3: `ipython_input` drops each leading stripped no-op directive
(`%auto`, `%hide`, `%hideall`, `%save_server`), rewrites every other
leading `%`-line to a double-`%` line with a trailing newline, stops the
scan at the first line not beginning with `%`, and appends all remaining
lines verbatim; in particular `"%auto\n%time\nx=1"` rewrites to
`"%%time\nx=1"`. -/
theorem spec_c3_directive_rewrite :
    (∀ s, ipythonInput s = ipythonInputSpec s) ∧
    ipythonInput (chars ("%auto\n%time\nx=1")) = chars ("%%time\nx=1") :=
  ⟨fun s => ipyLoop_take_drop (splitKeepEnds s), by decide⟩

/-- Claim C9: `ipython_input` is the identity on any input whose first
line does not begin with `%`, including the empty input. -/
theorem spec_c9_identity_no_directive (s : List Char)
    (h : firstLineNoPercent s = true) : ipythonInput s = s := by
  unfold firstLineNoPercent at h
  unfold ipythonInput
  cases hs : splitKeepEnds s with
  | nil =>
    rw [splitKeepEnds_eq_nil s hs]
    rfl
  | cons l ls =>
    rw [hs] at h
    simp only [Bool.not_eq_true'] at h
    rw [ipyLoop, if_neg (by simp [h])]
    have hj := joinAll_splitKeepEnds s
    rw [hs] at hj
    simpa [joinAll] using hj

/-- Witness for C9 at a concrete input whose first line starts with `x`. -/
theorem spec_c9_identity_no_directive_witness :
    ipythonInput (chars ("x=1\n%auto")) = chars ("x=1\n%auto") :=
  spec_c9_identity_no_directive _ (by decide)

/-- Claim C1 (code bug): the spec requires that a parse pass never raises,
emitting the pending narrative buffer at end-of-document and treating
end-of-document as an implicit marker for a truncated cell; the code
instead evaluates the marker predicates before `is_finished`, so the
`line` property indexes one past the last line and raises `IndexError`,
both for the spec's truncated Scenario D document and for a document
consisting of narrative text alone. -/
theorem spec_c1_code_raises_at_exhaustion :
    parseWorksheet (chars ("\x7b\x7b\x7bid=1|\nfoo\n///\nbar")) =
      .error .indexError ∧
    parseWorksheet (chars ("hello")) = .error .indexError := by
  constructor
  · decide
  · decide

/-- Claim C2, counterexample: the line `\x7b\x7b\x7bid=|` (zero digits) is
not of the claimed exact shape, yet the classifier does not classify it as
ordinary content: the regex `[0-9]*` accepts the empty digit run and
`int('')` then raises `ValueError`. -/
theorem spec_c2_counterexample :
    (decide (IsExactCellFrontShape (chars ("\x7b\x7b\x7bid=|")))) = false ∧
    isCellFrontStep (chars ("\x7b\x7b\x7bid=|")) 5 = .error .valueError := by
  constructor
  · decide
  · decide

/-- Claim C2, amended: `is_cell_front` returns true, capturing the digit
run as the index, exactly on lines that are the literal prefix, one or
more digits, and a final bar; every other line is classified as ordinary
content except the single zero-digit line (prefix and bar with no digits),
on which the empty capture makes the integer conversion raise
`ValueError`. -/
theorem spec_c2_amended (l : List Char) (i : Int) :
    (IsExactCellFrontShape l →
      isCellFrontStep l i = .ok (true, (digitsToNat ((l.drop 6).dropLast) : Int))) ∧
    (¬ IsExactCellFrontShape l → l ≠ frontMarkerPre ++ ['|'] →
      isCellFrontStep l i = .ok (false, i)) ∧
    isCellFrontStep (frontMarkerPre ++ ['|']) i = .error .valueError := by
  refine ⟨?_, ?_, ?_⟩
  · rintro ⟨hlen, htake, hlast, hdig⟩
    have hcap : cellFrontCapture l = some ((l.drop 6).dropLast) := by
      unfold cellFrontCapture
      rw [if_pos ⟨by omega, htake, hlast, hdig⟩]
    have hne : (l.drop 6).dropLast ≠ [] := by
      intro hnil
      have := congrArg List.length hnil
      simp [List.length_dropLast, List.length_drop] at this
      omega
    unfold isCellFrontStep
    rw [hcap]
    cases hmid : (l.drop 6).dropLast with
    | nil => exact absurd hmid hne
    | cons d ds => rfl
  · intro hns hne
    unfold isCellFrontStep cellFrontCapture
    by_cases hc : 7 ≤ l.length ∧ l.take 6 = frontMarkerPre ∧
        l.getLast? = some '|' ∧ (l.drop 6).dropLast.all Char.isDigit
    · exfalso
      obtain ⟨hlen, htake, hlast, hdig⟩ := hc
      by_cases h8 : 8 ≤ l.length
      · exact hns ⟨h8, htake, hlast, hdig⟩
      · have hlen7 : l.length = 7 := by omega
        apply hne
        have hsplit : l = l.take 6 ++ l.drop 6 := (List.take_append_drop 6 l).symm
        have hdlen : (l.drop 6).length = 1 := by
          rw [List.length_drop]; omega
        obtain ⟨c, hc1⟩ := List.length_eq_one.mp hdlen
        have hl : l = l.take 6 ++ [c] := by
          conv_lhs => rw [hsplit]
          rw [hc1]
        have hcl : c = '|' := by
          have hg : l.getLast? = some c := by
            rw [hl, List.getLast?_append_cons]
            rfl
          rw [hg] at hlast
          exact (Option.some.injEq _ _).mp hlast.symm |>.symm
        conv_lhs => rw [hsplit]
        rw [htake, hc1, hcl]
    · rw [if_neg hc]
  · unfold isCellFrontStep
    rw [show cellFrontCapture (frontMarkerPre ++ ['|']) = some [] from by decide]

/-- Witness for the amended C2 at a positive and a negative concrete line. -/
theorem spec_c2_amended_witness :
    isCellFrontStep (chars ("\x7b\x7b\x7bid=37|")) 5 = .ok (true, 37) ∧
    isCellFrontStep (chars ("plain line")) 5 = .ok (false, 5) :=
  ⟨(spec_c2_amended (chars ("\x7b\x7b\x7bid=37|")) 5).1 (by decide),
   (spec_c2_amended (chars ("plain line")) 5).2.1 (by decide) (by decide)⟩

/-! ### The HTML stripping pass: claims C4 and C5 -/

theorem stripPass_eq_claimPass (fuel : Nat) :
    ∀ t s : List Char, s.length < fuel →
      stripPass fuel t s = t ++ claimPassAux fuel s := by
  induction fuel with
  | zero => intro t s h; omega
  | succ fuel ih =>
    intro t s h
    by_cases hs : s = []
    · simp [stripPass, claimPassAux, hs]
    · rw [stripPass, claimPassAux, if_neg hs, if_neg hs]
      cases ho : findSub s openTag with
      | none => rfl
      | some i =>
        cases hc : findSub s closeTag with
        | none => rfl
        | some j =>
          have hlen : (s.drop (j + 7)).length < fuel := by
            have h1 : 1 ≤ s.length := by
              cases s with
              | nil => exact absurd rfl hs
              | cons a as => simp
            simp only [List.length_drop]
            omega
          show stripPass fuel (t ++ s.take i) (s.drop (j + 7)) =
            t ++ (s.take i ++ claimPassAux fuel (s.drop (j + 7)))
          rw [ih (t ++ s.take i) (s.drop (j + 7)) hlen, List.append_assoc]

theorem findSub_none_removeCloseAux (fuel : Nat) :
    ∀ s : List Char, findSub s closeTag = none → removeCloseAux fuel s = s := by
  induction fuel with
  | zero => intro s _; rfl
  | succ fuel ih =>
    intro s h
    cases s with
    | nil => rfl
    | cons c cs =>
      rw [findSub] at h
      by_cases hb : beginsWith closeTag (c :: cs)
      · rw [if_pos hb] at h
        exact absurd h (by simp)
      · rw [if_neg hb] at h
        have hcs : findSub cs closeTag = none := by
          cases hx : findSub cs closeTag with
          | none => rfl
          | some k => rw [hx] at h; simp at h
        rw [removeCloseAux, if_neg hb, ih cs hcs]

/-- Claim C4, counterexample: when an orphaned closing tag precedes the
opening tag, the code does not discard from the opening tag through "the
next closing tag": `s.find('</html>')` finds the earlier orphan, the text
before the opening tag is kept, and scanning resumes after the orphan, so
the text between them is processed twice.  On
`a</html>b<html>c</html>d` the code yields `abbd` while the claim's
algorithm (closing tag searched after the opening tag) yields `abd`. -/
theorem spec_c4_counterexample :
    plainTextOutput (chars ("a</html>b<html>c</html>d")) = chars ("abbd") ∧
    claimNaturalStrip (chars ("a</html>b<html>c</html>d")) = chars ("abd") ∧
    (decide (plainTextOutput (chars ("a</html>b<html>c</html>d")) =
      claimNaturalStrip (chars ("a</html>b<html>c</html>d")))) = false := by
  refine ⟨by decide, by decide, by decide⟩

/-- Claim C4, amended: `plain_text_output` repeatedly finds the next
opening tag (none left: keep the rest and stop), then the next closing tag
in the whole remaining string, from its start, not after the opening tag
(none left: discard from the opening tag to the end and stop); otherwise
it keeps everything before the opening tag and continues after the closing
tag, so when the closing tag precedes the opening tag the text between
them is scanned (and emitted) again; afterwards remaining literal
occurrences of the closing tag are stripped.  `a<html>b</html>c` yields
`ac`. -/
theorem spec_c4_amended :
    (∀ s, plainTextOutput s = claimStrip s) ∧
    plainTextOutput (chars ("a<html>b</html>c")) = chars ("ac") := by
  constructor
  · intro s
    unfold plainTextOutput claimStrip
    rw [stripPass_eq_claimPass (s.length + 1) [] s (by omega), List.nil_append]
  · decide

/-- Claim C5, counterexample: `plain_text_output` is not idempotent.  On
`<ht<html></html>ml>x` the removal splices the kept fragments into a brand
new `<html>` occurrence: the first application yields `<html>x`, and a
second application yields the empty string. -/
theorem spec_c5_counterexample :
    plainTextOutput (chars ("<ht<html></html>ml>x")) = chars ("<html>x") ∧
    plainTextOutput (chars ("<html>x")) = chars ("") ∧
    (decide (plainTextOutput (plainTextOutput (chars ("<ht<html></html>ml>x"))) =
      plainTextOutput (chars ("<ht<html></html>ml>x")))) = false := by
  refine ⟨by decide, by decide, by decide⟩

/-- Claim C5, amended: applying `plain_text_output` twice yields the same
result as applying it once whenever the first application's result
contains no occurrence of the opening or the closing tag (removal can
otherwise splice kept fragments into new tag occurrences, which only the
second application sees). -/
theorem spec_c5_amended_idempotent (s : List Char)
    (ho : findSub (plainTextOutput s) openTag = none)
    (hc : findSub (plainTextOutput s) closeTag = none) :
    plainTextOutput (plainTextOutput s) = plainTextOutput s := by
  have hpass : stripPass ((plainTextOutput s).length + 1) [] (plainTextOutput s) =
      plainTextOutput s := by
    cases hu : plainTextOutput s with
    | nil => rfl
    | cons c cs =>
      rw [stripPass, if_neg (by simp)]
      rw [hu] at ho
      rw [ho, List.nil_append]
  rw [show plainTextOutput (plainTextOutput s) =
    removeClose (stripPass ((plainTextOutput s).length + 1) [] (plainTextOutput s)) from rfl]
  rw [hpass]
  exact findSub_none_removeCloseAux _ _ hc

/-- Witness for the amended C5 at the spec's Scenario C output. -/
theorem spec_c5_amended_idempotent_witness :
    plainTextOutput (plainTextOutput (chars ("a<html>b</html>c"))) =
      plainTextOutput (chars ("a<html>b</html>c")) :=
  spec_c5_amended_idempotent _ (by decide) (by decide)

/-! ### Parser lemmas: round structure, progress, and fuel sufficiency -/

theorem scanText_ok_len : ∀ rem acc tacc ds rem1,
    scanText rem acc = .ok (tacc, ds, rem1) → rem1.length ≤ rem.length := by
  intro rem
  induction rem with
  | nil => intro acc tacc ds rem1 h; simp [scanText] at h
  | cons l rem ih =>
    intro acc tacc ds rem1 h
    rw [scanText] at h
    cases hcap : cellFrontCapture l with
    | none =>
      rw [hcap] at h
      exact le_trans (ih (acc ++ [l]) tacc ds rem1 h) (by simp)
    | some v =>
      cases v with
      | nil => rw [hcap] at h; simp at h
      | cons d ds' =>
        rw [hcap] at h
        simp only [Except.ok.injEq, Prod.mk.injEq] at h
        rw [← h.2.2]

theorem readInputLoop_ok_len : ∀ rem acc a rem',
    readInputLoop rem acc = .ok (a, rem') → rem'.length ≤ rem.length := by
  intro rem
  induction rem with
  | nil => intro acc a rem' h; simp [readInputLoop] at h
  | cons l rem ih =>
    intro acc a rem' h
    rw [readInputLoop] at h
    by_cases hl : l = cellMid
    · rw [if_pos hl] at h
      simp only [Except.ok.injEq, Prod.mk.injEq] at h
      rw [← h.2]
    · rw [if_neg hl] at h
      exact le_trans (ih (acc ++ [l]) a rem' h) (by simp)

theorem readOutputLoop_ok_len : ∀ rem acc a rem',
    readOutputLoop rem acc = .ok (a, rem') → rem'.length ≤ rem.length := by
  intro rem
  induction rem with
  | nil => intro acc a rem' h; simp [readOutputLoop] at h
  | cons l rem ih =>
    intro acc a rem' h
    rw [readOutputLoop] at h
    by_cases hl : l = cellBack
    · rw [if_pos hl] at h
      simp only [Except.ok.injEq, Prod.mk.injEq] at h
      rw [← h.2]
    · rw [if_neg hl] at h
      exact le_trans (ih (acc ++ [l]) a rem' h) (by simp)

theorem readInput_ok_len (rem : List (List Char)) (inp : List Char) (idx : Int)
    (rem2 : List (List Char)) (h : readInput rem = .ok (inp, idx, rem2)) :
    rem2.length < rem.length := by
  cases rem with
  | nil => simp [readInput] at h
  | cons l rem' =>
    unfold readInput at h
    dsimp only at h
    cases hcap : cellFrontCapture l with
    | none => rw [hcap] at h; simp at h
    | some v =>
      cases v with
      | nil => rw [hcap] at h; simp at h
      | cons d ds' =>
        rw [hcap] at h
        cases hloop : readInputLoop rem' [] with
        | error e => rw [hloop] at h; simp at h
        | ok v2 =>
          obtain ⟨acc, rem''⟩ := v2
          rw [hloop] at h
          simp only [Except.ok.injEq, Prod.mk.injEq] at h
          have := readInputLoop_ok_len rem' [] acc rem'' hloop
          rw [← h.2.2]
          simp only [List.length_cons]
          omega

theorem readOutput_ok_len (rem : List (List Char)) (out : List Char)
    (rem3 : List (List Char)) (h : readOutput rem = .ok (out, rem3)) :
    rem3.length < rem.length := by
  cases rem with
  | nil => simp [readOutput] at h
  | cons l rem' =>
    unfold readOutput at h
    dsimp only at h
    by_cases hl : l = cellMid
    · rw [if_pos hl] at h
      cases hloop : readOutputLoop rem' [] with
      | error e => rw [hloop] at h; simp at h
      | ok v2 =>
        obtain ⟨acc, rem''⟩ := v2
        rw [hloop] at h
        simp only [Except.ok.injEq, Prod.mk.injEq] at h
        have := readOutputLoop_ok_len rem' [] acc rem'' hloop
        rw [← h.2]
        simp only [List.length_cons]
        omega
    · rw [if_neg hl] at h
      simp at h

theorem roundStep_ok_facts (rem cells rem') (h : roundStep rem = .ok (cells, rem')) :
    rem'.length < rem.length ∧
    ∃ n inp out, 0 ≤ n ∧ (cells = [Cell.compute n inp out] ∨
      ∃ u, cells = [Cell.text u, Cell.compute n inp out]) := by
  unfold roundStep at h
  cases h1 : scanText rem [] with
  | error e => rw [h1] at h; simp at h
  | ok v =>
    obtain ⟨tacc, ds, rem1⟩ := v
    rw [h1] at h
    dsimp only at h
    have hl1 : rem1.length ≤ rem.length := scanText_ok_len rem [] tacc ds rem1 h1
    cases h2 : readInput rem1 with
    | error e => rw [h2] at h; simp at h
    | ok v2 =>
      obtain ⟨inp, idx, rem2⟩ := v2
      rw [h2] at h
      dsimp only at h
      have hl2 : rem2.length < rem1.length := readInput_ok_len rem1 inp idx rem2 h2
      cases h3 : readOutput rem2 with
      | error e => rw [h3] at h; simp at h
      | ok v3 =>
        obtain ⟨out, rem3⟩ := v3
        rw [h3] at h
        dsimp only at h
        have hl3 : rem3.length < rem2.length := readOutput_ok_len rem2 out rem3 h3
        by_cases hidx : idx < 0
        · rw [if_pos hidx] at h; simp at h
        · rw [if_neg hidx] at h
          have hnn : 0 ≤ idx := by omega
          cases rem3 with
          | nil =>
            simp only [Except.ok.injEq, Prod.mk.injEq] at h
            obtain ⟨hcells, hrem⟩ := h
            constructor
            · rw [← hrem]; simp only [List.length_nil]; omega
            · refine ⟨idx, inp, out, hnn, ?_⟩
              by_cases ht : pyStrip (joinNL tacc) = []
              · left; rw [← hcells, if_pos ht]; rfl
              · right; exact ⟨_, by rw [← hcells, if_neg ht]; rfl⟩
          | cons l rem4 =>
            dsimp only at h
            by_cases hb : l = cellBack
            · rw [if_pos hb] at h
              simp only [Except.ok.injEq, Prod.mk.injEq] at h
              obtain ⟨hcells, hrem⟩ := h
              constructor
              · rw [← hrem]
                simp only [List.length_cons] at hl3
                omega
              · refine ⟨idx, inp, out, hnn, ?_⟩
                by_cases ht : pyStrip (joinNL tacc) = []
                · left; rw [← hcells, if_pos ht]; rfl
                · right; exact ⟨_, by rw [← hcells, if_neg ht]; rfl⟩
            · rw [if_neg hb] at h
              simp at h

theorem iterFuel_sufficient : ∀ fuel rem, rem.length < fuel →
    ∃ r, iterFuel fuel rem = some r := by
  intro fuel
  induction fuel with
  | zero => intro rem h; omega
  | succ fuel ih =>
    intro rem h
    by_cases hrem : rem = []
    · exact ⟨.ok [], by rw [iterFuel, if_pos hrem]⟩
    · rw [iterFuel, if_neg hrem]
      cases hr : roundStep rem with
      | error e => exact ⟨.error e, rfl⟩
      | ok v =>
        obtain ⟨cells, rem'⟩ := v
        dsimp only
        have hlt := (roundStep_ok_facts rem cells rem' hr).1
        obtain ⟨r', hr'⟩ := ih rem' (by omega)
        rw [hr']
        cases r' with
        | error e => exact ⟨.error e, rfl⟩
        | ok rest => exact ⟨.ok (cells ++ rest), rfl⟩

/-- Claim C10: every parse pass terminates on every finite document: each
round of the iteration consumes at least one line, so fuel equal to the
number of lines plus one always suffices and `parseWorksheet` is total. -/
theorem spec_c10_terminates (doc : List Char) :
    ∃ r, iterFuel ((splitNoEnds doc).length + 1) (splitNoEnds doc) = some r ∧
      parseWorksheet doc = r := by
  obtain ⟨r, hr⟩ := iterFuel_sufficient ((splitNoEnds doc).length + 1)
    (splitNoEnds doc) (by omega)
  exact ⟨r, hr, by unfold parseWorksheet; rw [hr]⟩

theorem iterFuel_ok_nonneg : ∀ fuel rem cells,
    iterFuel fuel rem = some (.ok cells) → ∀ c ∈ cells, cellIndexNonneg c := by
  intro fuel
  induction fuel with
  | zero => intro rem cells h; simp [iterFuel] at h
  | succ fuel ih =>
    intro rem cells h
    rw [iterFuel] at h
    by_cases hrem : rem = []
    · rw [if_pos hrem] at h
      simp only [Option.some.injEq, Except.ok.injEq] at h
      subst h
      intro c hc
      simp at hc
    · rw [if_neg hrem] at h
      cases hr : roundStep rem with
      | error e => rw [hr] at h; simp at h
      | ok v =>
        obtain ⟨rcells, rem'⟩ := v
        rw [hr] at h
        dsimp only at h
        cases hi : iterFuel fuel rem' with
        | none => rw [hi] at h; simp at h
        | some r' =>
          rw [hi] at h
          cases r' with
          | error e => simp at h
          | ok rest =>
            simp only [Option.some.injEq, Except.ok.injEq] at h
            intro c hc
            rw [← h] at hc
            rcases List.mem_append.mp hc with hc1 | hc2
            · obtain ⟨n, inp, out, hnn, hshape⟩ := (roundStep_ok_facts rem rcells rem' hr).2
              rcases hshape with hsh | ⟨u, hsh⟩
              · rw [hsh] at hc1
                simp only [List.mem_singleton] at hc1
                rw [hc1]
                exact hnn
              · rw [hsh] at hc1
                simp only [List.mem_cons, List.not_mem_nil, or_false] at hc1
                rcases hc1 with h1 | h1
                · rw [h1]; exact trivial
                · rw [h1]; exact hnn
            · exact ih rem' rest hi c hc2

/-- Claim C8: every `ComputeCell` yielded by a successful parse satisfies
`index >= 0`: the index always comes from the decimal-digit capture of the
most recent cell-open match, and the `assert index >= 0` of
`ComputeCell.__init__` never fires. -/
theorem spec_c8_index_nonneg (doc : List Char) (cells : List Cell)
    (h : parseWorksheet doc = .ok cells) : ∀ c ∈ cells, cellIndexNonneg c := by
  unfold parseWorksheet at h
  cases hi : iterFuel ((splitNoEnds doc).length + 1) (splitNoEnds doc) with
  | none => rw [hi] at h; simp at h
  | some r =>
    rw [hi] at h
    dsimp only at h
    rw [h] at hi
    exact iterFuel_ok_nonneg _ _ _ hi

/-- Witness for C8 at the spec's Scenario A document. -/
theorem spec_c8_index_nonneg_witness :
    cellIndexNonneg (Cell.compute 3 (chars ("x = 1")) (chars ("4"))) :=
  spec_c8_index_nonneg (chars ("\x7b\x7b\x7bid=3|\nx = 1\n///\n4\n\x7d\x7d\x7d"))
    [Cell.compute 3 (chars ("x = 1")) (chars ("4"))] (by decide)
    (Cell.compute 3 (chars ("x = 1")) (chars ("4"))) (by simp)

theorem iterFuel_ok_text_followed : ∀ fuel rem cells,
    iterFuel fuel rem = some (.ok cells) →
    ∀ i t, cells[i]? = some (Cell.text t) →
    ∃ n inp out, cells[i + 1]? = some (Cell.compute n inp out) := by
  intro fuel
  induction fuel with
  | zero => intro rem cells h; simp [iterFuel] at h
  | succ fuel ih =>
    intro rem cells h
    rw [iterFuel] at h
    by_cases hrem : rem = []
    · rw [if_pos hrem] at h
      simp only [Option.some.injEq, Except.ok.injEq] at h
      subst h
      intro i t ht
      simp at ht
    · rw [if_neg hrem] at h
      cases hr : roundStep rem with
      | error e => rw [hr] at h; simp at h
      | ok v =>
        obtain ⟨rcells, rem'⟩ := v
        rw [hr] at h
        dsimp only at h
        cases hi : iterFuel fuel rem' with
        | none => rw [hi] at h; simp at h
        | some r' =>
          rw [hi] at h
          cases r' with
          | error e => simp at h
          | ok rest =>
            simp only [Option.some.injEq, Except.ok.injEq] at h
            subst h
            intro i t ht
            obtain ⟨n, inp, out, _, hshape⟩ := (roundStep_ok_facts rem rcells rem' hr).2
            rcases hshape with hsh | ⟨u, hsh⟩ <;> subst hsh
            · cases i with
              | zero => simp at ht
              | succ k =>
                simp only [List.cons_append, List.nil_append,
                  List.getElem?_cons_succ] at ht
                obtain ⟨n', inp', out', hk⟩ := ih rem' rest hi k t ht
                refine ⟨n', inp', out', ?_⟩
                simpa [List.getElem?_cons_succ] using hk
            · cases i with
              | zero =>
                exact ⟨n, inp, out, by simp⟩
              | succ k =>
                cases k with
                | zero => simp at ht
                | succ k' =>
                  simp only [List.cons_append, List.nil_append,
                    List.getElem?_cons_succ] at ht
                  obtain ⟨n', inp', out', hk⟩ := ih rem' rest hi k' t ht
                  refine ⟨n', inp', out', ?_⟩
                  simpa [List.getElem?_cons_succ] using hk

/-- Claim C7: cells are produced in document order, a nonempty `TextCell`
always being emitted immediately before the `ComputeCell` whose open
marker ended its narrative run (so in a successful parse every `TextCell`
is immediately followed by a `ComputeCell`); and the well-formed document
of Scenario A parses to exactly one `ComputeCell(3, "x = 1", "4")`. -/
theorem spec_c7_text_before_compute :
    (∀ (doc : List Char) (cells : List Cell), parseWorksheet doc = .ok cells →
      ∀ i t, cells[i]? = some (Cell.text t) →
      ∃ n inp out, cells[i + 1]? = some (Cell.compute n inp out)) ∧
    parseWorksheet (chars ("\x7b\x7b\x7bid=3|\nx = 1\n///\n4\n\x7d\x7d\x7d")) =
      .ok [Cell.compute 3 (chars ("x = 1")) (chars ("4"))] := by
  constructor
  · intro doc cells h i t ht
    unfold parseWorksheet at h
    cases hi : iterFuel ((splitNoEnds doc).length + 1) (splitNoEnds doc) with
    | none => rw [hi] at h; simp at h
    | some r =>
      rw [hi] at h
      dsimp only at h
      rw [h] at hi
      exact iterFuel_ok_text_followed _ _ _ hi i t ht
  · decide

/-- Witness for C7 at the spec's Scenario B document, whose parse emits a
`TextCell` directly followed by a `ComputeCell`. -/
theorem spec_c7_text_before_compute_witness :
    ∃ n inp out,
      ([Cell.text (chars ("Hello")),
        Cell.compute 0 (chars ("a")) (chars ("1"))][0 + 1]? =
        some (Cell.compute n inp out)) :=
  spec_c7_text_before_compute.1
    (chars ("Hello\n\x7b\x7b\x7bid=0|\na\n///\n1\n\x7d\x7d\x7d"))
    [Cell.text (chars ("Hello")), Cell.compute 0 (chars ("a")) (chars ("1"))]
    (by decide) 0 (chars ("Hello")) (by decide)

/-! ### Whitespace and strip lemmas (towards claim C6) -/

theorem breakChar_isSpace (c : Char) (h : isLineBreakChar c = true) :
    pyIsSpace c = true := by
  simp only [isLineBreakChar, Bool.or_eq_true, decide_eq_true_eq] at h
  rcases h with ((((((((h | h) | h) | h) | h) | h) | h) | h) | h) | h <;>
    subst h <;> decide

theorem dropWhile_all_append {α : Type} (p : α → Bool) (u v : List α)
    (h : ∀ c ∈ u, p c = true) :
    List.dropWhile p (u ++ v) = List.dropWhile p v := by
  induction u with
  | nil => rfl
  | cons x u ih =>
    rw [List.cons_append, List.dropWhile_cons, if_pos (h x (by simp))]
    exact ih fun c hc => h c (by simp [hc])

theorem dropWhile_ne_nil_append {α : Type} (p : α → Bool) (u v : List α)
    (h : List.dropWhile p u ≠ []) :
    List.dropWhile p (u ++ v) = List.dropWhile p u ++ v := by
  induction u with
  | nil => exact absurd rfl h
  | cons x u ih =>
    by_cases hx : p x
    · rw [List.cons_append, List.dropWhile_cons, if_pos hx,
        List.dropWhile_cons, if_pos hx]
      exact ih (by rwa [List.dropWhile_cons, if_pos hx] at h)
    · rw [List.cons_append, List.dropWhile_cons, if_neg hx,
        List.dropWhile_cons, if_neg hx, List.cons_append]

theorem dropWhile_idem {α : Type} (p : α → Bool) (u : List α) :
    List.dropWhile p (List.dropWhile p u) = List.dropWhile p u := by
  induction u with
  | nil => rfl
  | cons x u ih =>
    by_cases hx : p x
    · rw [List.dropWhile_cons, if_pos hx, ih]
    · rw [List.dropWhile_cons, if_neg hx, List.dropWhile_cons, if_neg hx]

theorem dropWhile_head_not {α : Type} (p : α → Bool) :
    ∀ (ls : List α) (l₀ : α) (ls₀ : List α),
      ls.dropWhile p = l₀ :: ls₀ → p l₀ = false := by
  intro ls
  induction ls with
  | nil => intro l₀ ls₀ h; simp at h
  | cons x ls ih =>
    intro l₀ ls₀ h
    by_cases hx : p x
    · rw [List.dropWhile_cons, if_pos hx] at h
      exact ih l₀ ls₀ h
    · rw [List.dropWhile_cons, if_neg hx] at h
      obtain ⟨rfl, -⟩ : x = l₀ ∧ ls = ls₀ := by
        injection h with h1 h2
        exact ⟨h1, h2⟩
      simpa using hx

theorem takeWhile_append_all {α : Type} (p : α → Bool) (u v : List α)
    (h : ∀ c ∈ u, p c = true) :
    List.takeWhile p (u ++ v) = u ++ List.takeWhile p v := by
  induction u with
  | nil => rfl
  | cons x u ih =>
    rw [List.cons_append, List.takeWhile_cons, if_pos (h x (by simp)),
      List.cons_append]
    rw [ih fun c hc => h c (by simp [hc])]

theorem dropWhile_append_all {α : Type} (p : α → Bool) (u v : List α)
    (h : ∀ c ∈ u, p c = true) :
    List.dropWhile p (u ++ v) = List.dropWhile p v :=
  dropWhile_all_append p u v h

theorem mem_pyStrip (c : Char) (u : List Char) (h : c ∈ pyStrip u) : c ∈ u := by
  unfold pyStrip stripRight at h
  rw [List.mem_reverse] at h
  have h2 := (List.dropWhile_sublist pyIsSpace).mem h
  rw [List.mem_reverse] at h2
  exact (List.dropWhile_sublist pyIsSpace).mem h2

theorem stripRight_append_spaces (u v : List Char)
    (h : ∀ c ∈ v, pyIsSpace c = true) :
    stripRight (u ++ v) = stripRight u := by
  unfold stripRight
  rw [List.reverse_append,
    dropWhile_all_append pyIsSpace v.reverse u.reverse
      (fun c hc => h c (List.mem_reverse.mp hc))]

theorem pyStrip_append_spaces (u v : List Char)
    (h : ∀ c ∈ v, pyIsSpace c = true) :
    pyStrip (u ++ v) = pyStrip u := by
  unfold pyStrip
  by_cases hu : List.dropWhile pyIsSpace u = []
  · rw [hu]
    have hv : List.dropWhile pyIsSpace v = [] :=
      List.dropWhile_eq_nil_iff.mpr fun c hc => h c hc
    rw [dropWhile_all_append pyIsSpace u v
      (fun c hc => List.dropWhile_eq_nil_iff.mp hu c hc), hv]
  · rw [dropWhile_ne_nil_append pyIsSpace u v hu,
      stripRight_append_spaces _ v h]

theorem stripRight_decomp (u : List Char) :
    u = stripRight u ++ (u.reverse.takeWhile pyIsSpace).reverse ∧
    ∀ c ∈ (u.reverse.takeWhile pyIsSpace).reverse, pyIsSpace c = true := by
  constructor
  · conv_lhs => rw [← u.reverse_reverse,
      ← List.takeWhile_append_dropWhile pyIsSpace u.reverse]
    rw [List.reverse_append]
    rfl
  · intro c hc
    rw [List.mem_reverse] at hc
    exact List.mem_takeWhile_imp hc

theorem pyStrip_head (u : List Char) (c : Char) (hu : u.head? = some c)
    (hc : pyIsSpace c = false) :
    pyStrip u ≠ [] ∧ (pyStrip u).head? = some c := by
  cases u with
  | nil => simp at hu
  | cons d u' =>
    simp only [List.head?_cons, Option.some.injEq] at hu
    subst hu
    have hdrop : List.dropWhile pyIsSpace (d :: u') = d :: u' := by
      rw [List.dropWhile_cons, if_neg (by simp [hc])]
    unfold pyStrip
    rw [hdrop]
    obtain ⟨hdec, hsp⟩ := stripRight_decomp (d :: u')
    have hne : stripRight (d :: u') ≠ [] := by
      intro hnil
      rw [hnil, List.nil_append] at hdec
      have : pyIsSpace d = true := hsp d (by rw [← hdec]; simp)
      rw [this] at hc
      exact absurd hc (by simp)
    constructor
    · exact hne
    · cases hsr : stripRight (d :: u') with
      | nil => exact absurd hsr hne
      | cons e rest =>
        rw [hsr] at hdec
        have hde : d = e := by
          have := congrArg List.head? hdec
          simpa using this
        rw [hde]
        rfl

theorem pyStrip_no_trailing (u : List Char) :
    (pyStrip u).reverse.dropWhile pyIsSpace = (pyStrip u).reverse := by
  unfold pyStrip stripRight
  rw [List.reverse_reverse]
  exact dropWhile_idem pyIsSpace _

theorem pyStrip_wrap (w : List Char)
    (hw : w.reverse.dropWhile pyIsSpace = w.reverse) :
    pyStrip (('%' :: w) ++ ['\n']) = '%' :: w := by
  have hp : pyIsSpace '%' = false := by decide
  have hdrop : List.dropWhile pyIsSpace (('%' :: w) ++ ['\n']) =
      ('%' :: w) ++ ['\n'] := by
    rw [List.cons_append, List.dropWhile_cons, if_neg (by simp [hp])]
  unfold pyStrip
  rw [hdrop]
  unfold stripRight
  rw [List.cons_append, List.reverse_cons, List.reverse_append]
  cases hwr : w.reverse with
  | nil =>
    have hwnil : w = [] := by
      have := congrArg List.reverse hwr
      simpa using this
    subst hwnil
    decide
  | cons d rest =>
    have hd : pyIsSpace d = false := by
      rw [hwr] at hw
      by_cases hpd : pyIsSpace d
      · rw [List.dropWhile_cons, if_pos hpd] at hw
        have hlen := congrArg List.length hw
        have hle : (List.dropWhile pyIsSpace rest).length ≤ rest.length :=
          (List.dropWhile_sublist pyIsSpace).length_le
        simp only [List.length_cons] at hlen
        omega
      · simpa using hpd
    have hw2 : (d :: rest).reverse = w := by rw [← hwr, List.reverse_reverse]
    have hstep : List.dropWhile pyIsSpace
        (['\n'].reverse ++ ((d :: rest) ++ ['%'])) = (d :: rest) ++ ['%'] := by
      rw [show (['\n'].reverse : List Char) = ['\n'] from rfl,
        List.singleton_append, List.dropWhile_cons, if_pos (by decide),
        List.cons_append, List.dropWhile_cons, if_neg (by simp [hd])]
    rw [List.append_assoc, hstep, List.reverse_append, hw2]
    rfl

/-! ### Structure of `splitKeepEnds` on rewritten inputs (towards C6) -/

theorem splitKeepEndsAux_body_newline (b : List Char)
    (hb : ∀ c ∈ b, isLineBreakChar c = false) :
    ∀ (rest acc : List Char),
      splitKeepEndsAux (b ++ '\n' :: rest) acc =
        (acc.reverse ++ (b ++ ['\n'])) :: splitKeepEndsAux rest [] := by
  induction b with
  | nil =>
    intro rest acc
    rw [List.nil_append,
      splitKeepEndsAux_break '\n' rest acc (by decide) (by simp)]
    simp
  | cons x b ih =>
    intro rest acc
    have hx : isLineBreakChar x = false := hb x (by simp)
    rw [List.cons_append, splitKeepEndsAux_cons x _ acc hx,
      ih (fun c hc => hb c (by simp [hc])) rest (x :: acc)]
    simp

theorem splitKeepEnds_glines (Gs : List (List Char)) (rest : List Char)
    (h : ∀ G ∈ Gs, ∃ b, (∀ c ∈ b, isLineBreakChar c = false) ∧ G = b ++ ['\n']) :
    splitKeepEnds (joinAll Gs ++ rest) = Gs ++ splitKeepEnds rest := by
  induction Gs with
  | nil => simp [joinAll]
  | cons G Gs ih =>
    obtain ⟨b, hb, rfl⟩ := h G (by simp)
    have : joinAll ((b ++ ['\n']) :: Gs) ++ rest =
        b ++ '\n' :: (joinAll Gs ++ rest) := by
      simp [joinAll]
    rw [this]
    unfold splitKeepEnds
    rw [splitKeepEndsAux_body_newline b hb (joinAll Gs ++ rest) []]
    rw [List.reverse_nil, List.nil_append]
    have ihx := ih (fun G hG => h G (by simp [hG]))
    unfold splitKeepEnds at ihx
    rw [ihx]
    rfl

theorem splitKeepEndsAux_head : ∀ (cs acc : List Char),
    cs ≠ [] ∨ acc ≠ [] →
    ∃ l ls, splitKeepEndsAux cs acc = l :: ls ∧ l ≠ [] ∧
      l.head? = (acc.reverse ++ cs).head? := by
  intro cs acc
  induction cs, acc using splitKeepEndsAux.induct with
  | case1 =>
    intro h
    rcases h with h | h <;> exact absurd rfl h
  | case2 acc h =>
    intro _
    refine ⟨acc.reverse, [], by simp [splitKeepEndsAux, h], by simpa using h, by simp⟩
  | case3 c acc hbrk ih =>
    intro _
    exact ⟨acc.reverse ++ [c], [], by simp [splitKeepEndsAux, hbrk], by simp, rfl⟩
  | case4 c acc hbrk ih =>
    intro _
    have hne : c :: acc ≠ [] := by simp
    refine ⟨(c :: acc).reverse, [], ?_, by simp, by simp⟩
    have : splitKeepEndsAux [c] acc = splitKeepEndsAux [] (c :: acc) := by
      simp [splitKeepEndsAux, hbrk]
    rw [this]
    simp [splitKeepEndsAux, hne]
  | case5 c c' cs acc h ih =>
    intro _
    obtain ⟨rfl, rfl⟩ := h
    refine ⟨acc.reverse ++ ['\r', '\n'], _, splitKeepEndsAux_rn cs acc, by simp, ?_⟩
    rw [List.head?_append, List.head?_append]
    rfl
  | case6 c c' cs acc hcc hbrk ih =>
    intro _
    have hr : ¬(c = '\r' ∧ (c' :: cs).head? = some '\n') := by
      rintro ⟨rfl, hh⟩
      simp only [List.head?_cons, Option.some.injEq] at hh
      exact hcc ⟨rfl, hh⟩
    refine ⟨acc.reverse ++ [c], _,
      splitKeepEndsAux_break c (c' :: cs) acc hbrk hr, by simp, ?_⟩
    rw [List.head?_append, List.head?_append]
    rfl
  | case7 c c' cs acc hcc hbrk ih =>
    intro _
    have hx : isLineBreakChar c = false := by simpa using hbrk
    obtain ⟨l, ls, heq, hne, hhead⟩ := ih (Or.inl (by simp))
    refine ⟨l, ls, by rw [splitKeepEndsAux_cons c _ acc hx]; exact heq, hne, ?_⟩
    rw [hhead]
    simp

theorem splitKeepEndsAux_lines_ne_nil : ∀ (cs acc : List Char),
    ∀ l ∈ splitKeepEndsAux cs acc, l ≠ [] := by
  intro cs acc
  induction cs, acc using splitKeepEndsAux.induct with
  | case1 => simp [splitKeepEndsAux]
  | case2 acc h =>
    intro l hl
    rw [splitKeepEndsAux_nil, if_neg h] at hl
    simp only [List.mem_singleton] at hl
    subst hl
    simpa using h
  | case3 c acc hbrk ih =>
    intro l hl
    rw [show splitKeepEndsAux [c] acc =
      (acc.reverse ++ [c]) :: splitKeepEndsAux [] [] by simp [splitKeepEndsAux, hbrk]] at hl
    rcases List.mem_cons.mp hl with rfl | hl
    · simp
    · exact ih l hl
  | case4 c acc hbrk ih =>
    intro l hl
    rw [show splitKeepEndsAux [c] acc = splitKeepEndsAux [] (c :: acc) by
      simp [splitKeepEndsAux, hbrk]] at hl
    exact ih l hl
  | case5 c c' cs acc h ih =>
    obtain ⟨rfl, rfl⟩ := h
    intro l hl
    rw [splitKeepEndsAux_rn] at hl
    rcases List.mem_cons.mp hl with rfl | hl
    · simp
    · exact ih l hl
  | case6 c c' cs acc hcc hbrk ih =>
    intro l hl
    have hr : ¬(c = '\r' ∧ (c' :: cs).head? = some '\n') := by
      rintro ⟨rfl, hh⟩
      simp only [List.head?_cons, Option.some.injEq] at hh
      exact hcc ⟨rfl, hh⟩
    rw [splitKeepEndsAux_break c (c' :: cs) acc hbrk hr] at hl
    rcases List.mem_cons.mp hl with rfl | hl
    · simp
    · exact ih l hl
  | case7 c c' cs acc hcc hbrk ih =>
    intro l hl
    rw [splitKeepEndsAux_cons c _ acc (by simpa using hbrk)] at hl
    exact ih l hl

theorem splitKeepEndsAux_line_decomp : ∀ (cs acc : List Char),
    (∀ c ∈ acc, isLineBreakChar c = false) →
    ∀ l ∈ splitKeepEndsAux cs acc,
      ∃ b t, l = b ++ t ∧ (∀ c ∈ b, isLineBreakChar c = false) ∧
        (∀ c ∈ t, pyIsSpace c = true) := by
  intro cs acc
  induction cs, acc using splitKeepEndsAux.induct with
  | case1 => simp [splitKeepEndsAux]
  | case2 acc h =>
    intro hacc l hl
    rw [splitKeepEndsAux_nil, if_neg h] at hl
    simp only [List.mem_singleton] at hl
    subst hl
    exact ⟨acc.reverse, [], by simp, fun c hc => hacc c (List.mem_reverse.mp hc),
      by simp⟩
  | case3 c acc hbrk ih =>
    intro hacc l hl
    rw [show splitKeepEndsAux [c] acc =
      (acc.reverse ++ [c]) :: splitKeepEndsAux [] [] by simp [splitKeepEndsAux, hbrk]] at hl
    rcases List.mem_cons.mp hl with rfl | hl
    · exact ⟨acc.reverse, [c], rfl, fun c hc => hacc c (List.mem_reverse.mp hc),
        by simpa using breakChar_isSpace c hbrk⟩
    · exact ih (by simp) l hl
  | case4 c acc hbrk ih =>
    intro hacc l hl
    rw [show splitKeepEndsAux [c] acc = splitKeepEndsAux [] (c :: acc) by
      simp [splitKeepEndsAux, hbrk]] at hl
    refine ih ?_ l hl
    intro x hx
    rcases List.mem_cons.mp hx with rfl | hx
    · simpa using hbrk
    · exact hacc x hx
  | case5 c c' cs acc h ih =>
    obtain ⟨rfl, rfl⟩ := h
    intro hacc l hl
    rw [splitKeepEndsAux_rn] at hl
    rcases List.mem_cons.mp hl with rfl | hl
    · refine ⟨acc.reverse, ['\r', '\n'], rfl,
        fun c hc => hacc c (List.mem_reverse.mp hc), ?_⟩
      intro c hc
      rcases List.mem_cons.mp hc with rfl | hc
      · decide
      · simp only [List.mem_singleton] at hc
        subst hc
        decide
    · exact ih (by simp) l hl
  | case6 c c' cs acc hcc hbrk ih =>
    intro hacc l hl
    have hr : ¬(c = '\r' ∧ (c' :: cs).head? = some '\n') := by
      rintro ⟨rfl, hh⟩
      simp only [List.head?_cons, Option.some.injEq] at hh
      exact hcc ⟨rfl, hh⟩
    rw [splitKeepEndsAux_break c (c' :: cs) acc hbrk hr] at hl
    rcases List.mem_cons.mp hl with rfl | hl
    · exact ⟨acc.reverse, [c], rfl, fun x hx => hacc x (List.mem_reverse.mp hx),
        by simpa using breakChar_isSpace c hbrk⟩
    · exact ih (by simp) l hl
  | case7 c c' cs acc hcc hbrk ih =>
    intro hacc l hl
    rw [splitKeepEndsAux_cons c _ acc (by simpa using hbrk)] at hl
    refine ih ?_ l hl
    intro x hx
    rcases List.mem_cons.mp hx with rfl | hx
    · simpa using hbrk
    · exact hacc x hx

/-! ### Properties of rewritten directive lines (towards C6) -/

theorem startsPercent_head (l : List Char) :
    startsPercent l = true ↔ l.head? = some '%' := by
  cases l <;> simp [startsPercent]

theorem filterMap_all_some {α β : Type} (f : α → Option β) (g : α → β) :
    ∀ L : List α, (∀ a ∈ L, f a = some (g a)) → L.filterMap f = L.map g := by
  intro L
  induction L with
  | nil => intro _; rfl
  | cons a L ih =>
    intro h
    rw [List.filterMap_cons, h a (by simp), List.map_cons,
      ih fun a ha => h a (by simp [ha])]

theorem gline_props (x l : List Char) (hl : l ∈ splitKeepEnds x)
    (hp : startsPercent l = true) :
    (pyStrip l).head? = some '%' ∧
    (∀ c ∈ ('%' :: pyStrip l), isLineBreakChar c = false) ∧
    (pyStrip l).reverse.dropWhile pyIsSpace = (pyStrip l).reverse := by
  obtain ⟨b, t, hlbt, hbnb, hts⟩ :=
    splitKeepEndsAux_line_decomp x [] (by simp) l hl
  have hstrip : pyStrip l = pyStrip b := by
    rw [hlbt]; exact pyStrip_append_spaces b t hts
  have hlh : l.head? = some '%' := (startsPercent_head l).mp hp
  have hbne : b ≠ [] := by
    rintro rfl
    rw [List.nil_append] at hlbt
    rcases l with - | ⟨c, l'⟩
    · simp at hlh
    · simp only [List.head?_cons, Option.some.injEq] at hlh
      subst hlh
      have hpc := hts '%' (by rw [← hlbt]; simp)
      exact absurd hpc (by decide)
  have hbh : b.head? = some '%' := by
    rw [hlbt, List.head?_append] at hlh
    cases hb : b.head? with
    | none => exact absurd (List.head?_eq_none_iff.mp hb) hbne
    | some c => rw [hb] at hlh; simpa using hlh
  obtain ⟨hsne, hsh⟩ := pyStrip_head b '%' hbh (by decide)
  refine ⟨by rw [hstrip]; exact hsh, ?_, pyStrip_no_trailing l⟩
  intro c hc
  rcases List.mem_cons.mp hc with rfl | hc
  · decide
  · rw [hstrip] at hc
    exact hbnb c (mem_pyStrip c b hc)

theorem rewriteDirective_some (l G : List Char)
    (h : rewriteDirective l = some G) :
    G = ('%' :: pyStrip l) ++ ['\n'] ∧ pyStrip l ∉ noopDirectives := by
  unfold rewriteDirective at h
  by_cases hn : pyStrip l ∈ noopDirectives
  · rw [if_pos hn] at h; simp at h
  · rw [if_neg hn] at h
    simp only [Option.some.injEq] at h
    exact ⟨h.symm, hn⟩

theorem rewriteDirective_double (G w : List Char)
    (hG : G = ('%' :: w) ++ ['\n']) (hwh : w.head? = some '%')
    (hwt : w.reverse.dropWhile pyIsSpace = w.reverse) :
    pyStrip G = '%' :: w ∧ rewriteDirective G = some ('%' :: G) := by
  have hstrip : pyStrip G = '%' :: w := by
    rw [hG]; exact pyStrip_wrap w hwt
  refine ⟨hstrip, ?_⟩
  cases w with
  | nil => simp at hwh
  | cons c w' =>
    simp only [List.head?_cons, Option.some.injEq] at hwh
    subst hwh
    have hnn : pyStrip G ∉ noopDirectives := by
      rw [hstrip]
      simp [noopDirectives, chars]
    unfold rewriteDirective
    rw [if_neg hnn, hstrip, hG]
    rfl

/-! ### The leading-percent block of a rewritten input (towards C6) -/

theorem block_of_glines (Gs : List (List Char)) (R : List Char)
    (hGs : ∀ G ∈ Gs, startsPercent G = true ∧
      ∃ b, (∀ c ∈ b, isLineBreakChar c = false) ∧ G = b ++ ['\n'])
    (hR : ∀ l₀ ls₀, splitKeepEnds R = l₀ :: ls₀ → startsPercent l₀ = false) :
    splitKeepEnds (joinAll Gs ++ R) = Gs ++ splitKeepEnds R ∧
    (splitKeepEnds (joinAll Gs ++ R)).takeWhile startsPercent = Gs ∧
    (splitKeepEnds (joinAll Gs ++ R)).dropWhile startsPercent = splitKeepEnds R := by
  have hsplit := splitKeepEnds_glines Gs R fun G hG => (hGs G hG).2
  refine ⟨hsplit, ?_, ?_⟩
  · rw [hsplit, takeWhile_append_all startsPercent Gs _ fun G hG => (hGs G hG).1]
    cases hz : splitKeepEnds R with
    | nil => simp
    | cons l₀ ls₀ =>
      rw [List.takeWhile_cons, if_neg (by simp [hR l₀ ls₀ hz])]
      simp
  · rw [hsplit, dropWhile_append_all startsPercent Gs _ fun G hG => (hGs G hG).1]
    cases hz : splitKeepEnds R with
    | nil => rfl
    | cons l₀ ls₀ => rw [List.dropWhile_cons, if_neg (by simp [hR l₀ ls₀ hz])]

theorem rest_head_not_percent (x : List Char) :
    ∀ l₀ ls₀,
      splitKeepEnds (joinAll ((splitKeepEnds x).dropWhile startsPercent)) =
        l₀ :: ls₀ →
      startsPercent l₀ = false := by
  intro l₀ ls₀ hz
  cases hr : (splitKeepEnds x).dropWhile startsPercent with
  | nil =>
    rw [hr] at hz
    simp [joinAll, splitKeepEnds, splitKeepEndsAux] at hz
  | cons r₀ rs =>
    have hP : startsPercent r₀ = false :=
      dropWhile_head_not startsPercent (splitKeepEnds x) r₀ rs hr
    have hr0mem : r₀ ∈ splitKeepEnds x :=
      (List.dropWhile_sublist startsPercent).mem (by rw [hr]; simp)
    have hr0ne : r₀ ≠ [] := splitKeepEndsAux_lines_ne_nil x [] r₀ hr0mem
    have hjoin : joinAll ((splitKeepEnds x).dropWhile startsPercent) =
        r₀ ++ joinAll rs := by rw [hr]; rfl
    have hjne : r₀ ++ joinAll rs ≠ [] := by
      cases r₀ with
      | nil => exact absurd rfl hr0ne
      | cons a b => simp
    obtain ⟨l, ls, heq, hlne, hlh⟩ :=
      splitKeepEndsAux_head (r₀ ++ joinAll rs) [] (Or.inl hjne)
    rw [hjoin] at hz
    unfold splitKeepEnds at hz
    rw [heq] at hz
    obtain ⟨rfl, -⟩ : l = l₀ ∧ ls = ls₀ := by
      injection hz with h1 h2
      exact ⟨h1, h2⟩
    rw [List.reverse_nil, List.nil_append, List.head?_append] at hlh
    cases hrh : r₀.head? with
    | none => exact absurd (List.head?_eq_none_iff.mp hrh) hr0ne
    | some c =>
      rw [hrh] at hlh
      simp only [Option.or] at hlh
      by_cases hsp : startsPercent l
      · exfalso
        have hl0 := (startsPercent_head l).mp hsp
        rw [hl0] at hlh
        have hc' : c = '%' := by simpa using hlh.symm
        have : startsPercent r₀ = true :=
          (startsPercent_head r₀).mpr (by rw [hrh, hc'])
        rw [this] at hP
        exact absurd hP (by simp)
      · simpa using hsp

/-- Claim C6, counterexample: the directive rewrite is not idempotent on
its leading block: each pass prepends one more `%` to every kept leading
directive line, so re-applying it to the already-rewritten `%%time\nx=1`
produces a `%%%time` block, not the same lines. -/
theorem spec_c6_counterexample :
    leadingPercentBlock (ipythonInput (ipythonInput (chars ("%time\nx=1")))) =
      [chars ("%%%time\n")] ∧
    leadingPercentBlock (ipythonInput (chars ("%time\nx=1"))) =
      [chars ("%%time\n")] ∧
    (decide (leadingPercentBlock (ipythonInput (ipythonInput (chars ("%time\nx=1")))) =
      leadingPercentBlock (ipythonInput (chars ("%time\nx=1"))))) = false := by
  refine ⟨by decide, by decide, by decide⟩

/-- Claim C6, amended: re-applying the rewrite to an already-rewritten
input and restricting to the leading `%`-block yields the same lines
except that every line gains one more leading `%`: for every input, the
leading block of the twice-rewritten input is the map of `'%' :: ·` over
the leading block of the once-rewritten input (the non-directive tail is
unchanged). -/
theorem spec_c6_amended (s : List Char) :
    leadingPercentBlock (ipythonInput (ipythonInput s)) =
      (leadingPercentBlock (ipythonInput s)).map (fun l => '%' :: l) := by
  have hfx : ipythonInput s =
      joinAll (((splitKeepEnds s).takeWhile startsPercent).filterMap
        rewriteDirective) ++
      joinAll ((splitKeepEnds s).dropWhile startsPercent) :=
    ipyLoop_take_drop (splitKeepEnds s)
  have hGprops : ∀ G ∈ ((splitKeepEnds s).takeWhile startsPercent).filterMap
      rewriteDirective,
      ∃ w, G = ('%' :: w) ++ ['\n'] ∧ w.head? = some '%' ∧
        (∀ c ∈ ('%' :: w), isLineBreakChar c = false) ∧
        w.reverse.dropWhile pyIsSpace = w.reverse := by
    intro G hG
    obtain ⟨l, hlds, hrw⟩ := List.mem_filterMap.mp hG
    have hlp : startsPercent l = true := List.mem_takeWhile_imp hlds
    have hll : l ∈ splitKeepEnds s :=
      (List.takeWhile_sublist startsPercent).mem hlds
    obtain ⟨hsh, hnb, htr⟩ := gline_props s l hll hlp
    obtain ⟨hGeq, -⟩ := rewriteDirective_some l G hrw
    exact ⟨pyStrip l, hGeq, hsh, hnb, htr⟩
  have hGside : ∀ G ∈ ((splitKeepEnds s).takeWhile startsPercent).filterMap
      rewriteDirective,
      startsPercent G = true ∧
      ∃ b, (∀ c ∈ b, isLineBreakChar c = false) ∧ G = b ++ ['\n'] := by
    intro G hG
    obtain ⟨w, hGeq, hwh, hnb, htr⟩ := hGprops G hG
    exact ⟨by rw [hGeq]; rfl, '%' :: w, hnb, hGeq⟩
  have hbound := rest_head_not_percent s
  have h1 := block_of_glines
    (((splitKeepEnds s).takeWhile startsPercent).filterMap rewriteDirective)
    (joinAll ((splitKeepEnds s).dropWhile startsPercent)) hGside hbound
  have hblock1 : leadingPercentBlock (ipythonInput s) =
      ((splitKeepEnds s).takeWhile startsPercent).filterMap rewriteDirective := by
    unfold leadingPercentBlock
    rw [hfx]
    exact h1.2.1
  have hmap : (((splitKeepEnds s).takeWhile startsPercent).filterMap
        rewriteDirective).filterMap rewriteDirective =
      (((splitKeepEnds s).takeWhile startsPercent).filterMap
        rewriteDirective).map (fun G => '%' :: G) := by
    refine filterMap_all_some _ _ _ fun G hG => ?_
    obtain ⟨w, hGeq, hwh, hnb, htr⟩ := hGprops G hG
    exact (rewriteDirective_double G w hGeq hwh htr).2
  have hffx : ipythonInput (ipythonInput s) =
      joinAll ((((splitKeepEnds s).takeWhile startsPercent).filterMap
        rewriteDirective).map (fun G => '%' :: G)) ++
      joinAll ((splitKeepEnds s).dropWhile startsPercent) := by
    have hx : ipythonInput (ipythonInput s) =
        joinAll (((splitKeepEnds (ipythonInput s)).takeWhile
          startsPercent).filterMap rewriteDirective) ++
        joinAll ((splitKeepEnds (ipythonInput s)).dropWhile startsPercent) :=
      ipyLoop_take_drop (splitKeepEnds (ipythonInput s))
    rw [hx, hfx, h1.2.1, h1.2.2, hmap,
      joinAll_splitKeepEnds (joinAll ((splitKeepEnds s).dropWhile startsPercent))]
  have hG2side : ∀ G2 ∈ (((splitKeepEnds s).takeWhile startsPercent).filterMap
      rewriteDirective).map (fun G => '%' :: G),
      startsPercent G2 = true ∧
      ∃ b, (∀ c ∈ b, isLineBreakChar c = false) ∧ G2 = b ++ ['\n'] := by
    intro G2 hG2
    obtain ⟨G, hGmem, rfl⟩ := List.mem_map.mp hG2
    obtain ⟨w, hGeq, hwh, hnb, htr⟩ := hGprops G hGmem
    refine ⟨rfl, '%' :: '%' :: w, ?_, ?_⟩
    · intro c hc
      rcases List.mem_cons.mp hc with rfl | hc
      · decide
      · exact hnb c hc
    · rw [hGeq]
      rfl
  have h2 := block_of_glines
    ((((splitKeepEnds s).takeWhile startsPercent).filterMap
      rewriteDirective).map (fun G => '%' :: G))
    (joinAll ((splitKeepEnds s).dropWhile startsPercent)) hG2side hbound
  have hblock2 : leadingPercentBlock (ipythonInput (ipythonInput s)) =
      (((splitKeepEnds s).takeWhile startsPercent).filterMap
        rewriteDirective).map (fun G => '%' :: G) := by
    unfold leadingPercentBlock
    rw [hffx]
    exact h2.2.1
  rw [hblock1, hblock2]
